import Mathlib

/-!
Shallow embedding of `src/peerscout/main.py` (module `peerscout.main`).

Python strings are modelled as `List Char` (`PyStr`).  Python `str.split(sep)`
with a one-character separator is `pySplit`, Python `int(str)` is `pyInt`
(ASCII digits, optional sign, surrounding ASCII whitespace, underscores
allowed singly between digits), Python `str(int)` is `intToChars`, and the
Python slice `xs[:k]` (with `k` a possibly negative int) is `pySliceTo`.

External effects (the Polkachu directory responses, the ipinfo batch
geolocation call and the ICMP/TCP probes) are passed in as oracle arguments,
so every function of the source becomes a pure Lean function of its oracles.
Python exceptions are modelled with `Option`/`Except`: a raised exception
that escapes a modelled function is `none`.

One caveat is recorded where it matters: Python `set` iteration order is
unspecified, so `fetch_live_peers`'s pool of unique peers is realised as its
insertion-ordered list of distinct elements; all verified statements about
it depend only on membership and cardinality, never on that order.
-/

namespace Peerscout

/-- Python strings, modelled as lists of characters. -/
abbrev PyStr := List Char

/-- Python `s.split(sep)` for a single-character separator `sep`:
splits at every occurrence, keeping empty segments (`"".split` is `[""]`). -/
def pySplit (sep : Char) : List Char → List (List Char)
  | [] => [[]]
  | c :: rest =>
    match pySplit sep rest with
    | [] => []
    | w :: ws => if c = sep then [] :: w :: ws else (c :: w) :: ws

/-- ASCII whitespace as stripped by Python `int(str)`. -/
def isPySpace (c : Char) : Bool :=
  c.toNat = 32 || c.toNat = 9 || c.toNat = 10 || c.toNat = 13 ||
    c.toNat = 11 || c.toNat = 12

/-- Strip leading and trailing whitespace (Python `str.strip()` as used by
`int`). -/
def pyStrip (l : List Char) : List Char :=
  ((l.dropWhile isPySpace).reverse.dropWhile isPySpace).reverse

/-- ASCII decimal digit test. -/
def isDigitCh (c : Char) : Bool :=
  48 ≤ c.toNat && c.toNat ≤ 57

/-- Numeric value of an ASCII digit character. -/
def digitVal (c : Char) : Nat := c.toNat - 48

/-- Value of a big-endian ASCII digit string. -/
def digitsVal (l : List Char) : Nat :=
  l.foldl (fun a c => a * 10 + digitVal c) 0

/-- After an initial digit, Python `int` accepts digits with single
underscores strictly between digits. -/
def digitsRest : List Char → Bool
  | [] => true
  | c :: rest =>
    if c = '_' then
      match rest with
      | [] => false
      | c2 :: rest2 => isDigitCh c2 && digitsRest rest2
    else isDigitCh c && digitsRest rest

/-- The unsigned digit part of Python `int(str)`: a nonempty digit string,
with underscores allowed singly between digits. -/
def pyIntCore (l : List Char) : Option Nat :=
  match l with
  | [] => none
  | c :: rest =>
    if isDigitCh c && digitsRest rest then
      some (digitsVal (l.filter (fun x => decide (x ≠ '_'))))
    else none

/-- Python `int(str)` for base 10: strip whitespace, optional single sign,
then the digit part.  `none` models a raised `ValueError`. -/
def pyInt (s : List Char) : Option Int :=
  match pyStrip s with
  | [] => none
  | c :: rest =>
    if c = '+' then (pyIntCore rest).map (fun n => (n : Int))
    else if c = '-' then (pyIntCore rest).map (fun n => -(n : Int))
    else (pyIntCore (c :: rest)).map (fun n => (n : Int))

/-- ASCII character of a decimal digit. -/
def charOfDigit (d : Nat) : Char := Char.ofNat (48 + d)

/-- Fuel-driven big-endian decimal rendering of a natural number. -/
def natToCharsAux : Nat → Nat → List Char → List Char
  | 0, _, acc => acc
  | fuel + 1, n, acc =>
    let acc' := charOfDigit (n % 10) :: acc
    if n / 10 = 0 then acc' else natToCharsAux fuel (n / 10) acc'

/-- Python `str(n)` for a natural number. -/
def natToChars (n : Nat) : List Char := natToCharsAux (n + 1) n []

/-- Python `str(z)` for an integer. -/
def intToChars : Int → List Char
  | .ofNat n => natToChars n
  | .negSucc m => '-' :: natToChars (m + 1)

/-- Python slice `xs[:k]` for an int `k`: clamps, and a negative `k` counts
from the end. -/
def pySliceTo (k : Int) (l : List α) : List α :=
  if 0 ≤ k then l.take k.toNat else l.take (l.length + k).toNat

/-- `PeerEndpoint` dataclass of the source: node id, ip and port as parsed
from a `nodeID@ip:port` string.  The port is a Python int. -/
structure PeerEndpoint where
  node_id : PyStr
  ip : PyStr
  port : Int
deriving DecidableEq

namespace PeerEndpoint

/-- `PeerEndpoint.from_string`: `node_id, address = endpoint.split("@")`
then `ip, port = address.split(":")` then `int(port)`.  Each unpacking
demands exactly two segments; any failure raises, modelled by `none`. -/
def from_string (s : PyStr) : Option PeerEndpoint :=
  match pySplit '@' s with
  | [node_id, address] =>
    match pySplit ':' address with
    | [ip, portStr] => (pyInt portStr).map (fun port => ⟨node_id, ip, port⟩)
    | _ => none
  | _ => none

/-- `PeerEndpoint.__str__`: the `f"{self.node_id}@{self.ip}:{self.port}"`
format. -/
def render (e : PeerEndpoint) : PyStr :=
  e.node_id ++ '@' :: (e.ip ++ ':' :: intToChars e.port)

end PeerEndpoint

/-- `PeerConfig` dataclass of the source (argparse gives ints for the
numeric fields; `max_latency` participates in latency comparisons, so it is
taken in `ℚ`). -/
structure PeerConfig where
  network : PyStr
  target_countries : List PyStr
  max_latency : ℚ
  desired_count : Int
  max_attempts : Int
  access_token : PyStr

/-- Result of `Data.fetch_live_peers` (the `ChainLivePeers` dataclass). -/
structure ChainLivePeers where
  network : PyStr
  polkachu_peer : PyStr
  live_peers : List PyStr
deriving DecidableEq

/-- Python `set.update` on a pool realised as an insertion-ordered list of
distinct elements: add each new element not already present. -/
def set_update (pool : List PyStr) (batch : List PyStr) : List PyStr :=
  batch.foldl (fun acc x => if x ∈ acc then acc else acc ++ [x]) pool

/-- The `while attempts < max_attempts and len(unique_peers) < 25` loop of
`Data.fetch_live_peers`.  `resp i` is the directory response of attempt `i`:
`some (polkachu_peer, live_peers)` when the JSON has a `live_peers` key,
`none` otherwise.  Returns (attempts, pool, last_data). -/
def fetch_loop (resp : Nat → Option (PyStr × List PyStr)) :
    Nat → Nat → List PyStr → Option (PyStr × List PyStr) →
    Nat × List PyStr × Option (PyStr × List PyStr)
  | 0, att, pool, last => (att, pool, last)
  | fuel + 1, att, pool, last =>
    if pool.length < 25 then
      match resp att with
      | some d => fetch_loop resp fuel (att + 1) (set_update pool d.2) (some d)
      | none => fetch_loop resp fuel (att + 1) pool last
    else (att, pool, last)

/-- `Data.fetch_live_peers`: run the loop, then either the empty result
(when no response ever had a `live_peers` key) or the first 25 pooled
peers with the last response's `polkachu_peer`. -/
def fetch_live_peers (cfg : PeerConfig) (resp : Nat → Option (PyStr × List PyStr)) :
    ChainLivePeers :=
  let r := fetch_loop resp cfg.max_attempts.toNat 0 [] none
  match r.2.2 with
  | none => ⟨cfg.network, [], []⟩
  | some d => ⟨cfg.network, d.1, r.2.1.take 25⟩

/-- The pool of unique raw peers after `k` unconditional fetches (the loop
performs a prefix of these, stopping per its guard). -/
def pool_after (resp : Nat → Option (PyStr × List PyStr)) : Nat → List PyStr
  | 0 => []
  | k + 1 =>
    match resp k with
    | some d => set_update (pool_after resp k) d.2
    | none => pool_after resp k

/-- The `last_data` value after `k` unconditional fetches. -/
def last_after (resp : Nat → Option (PyStr × List PyStr)) :
    Nat → Option (PyStr × List PyStr)
  | 0 => none
  | k + 1 =>
    match resp k with
    | some d => some d
    | none => last_after resp k

/-- The loopback forms rejected by `Filter._filter_invalid_peers`. -/
def loopbacks : List PyStr :=
  ["127.0.0.1".toList, "localhost".toList, "::1".toList]

/-- `Filter._filter_invalid_peers`: keep the peers whose ip is not a
loopback form. -/
def filter_invalid_peers (peers : List PeerEndpoint) : List PeerEndpoint :=
  peers.filter (fun p => decide (p.ip ∉ loopbacks))

/-- One value of the ipinfo batch-details mapping: either a dict whose
`country` key may be absent, or a non-dict value (taken as the country
itself by the `isinstance` branch of the source). -/
inductive GeoDetails where
  | dictD (country : Option PyStr)
  | rawD (value : PyStr)
deriving DecidableEq

/-- The `country` extracted from a batch-details value:
`details.get("country") if isinstance(details, dict) else details`. -/
def countryOf : GeoDetails → Option PyStr
  | .dictD c => c
  | .rawD s => some s

/-- Lookup in the `peer_map = {peer.ip: peer for peer in peers}` dict
comprehension: bindings are written left to right, so for duplicate ips the
last peer in input order wins. -/
def peer_map_lookup (peers : List PeerEndpoint) (ip : PyStr) : Option PeerEndpoint :=
  peers.foldl (fun acc p => if p.ip = ip then some p else acc) none

/-- `list(peer_map.keys())`: the distinct ips in first-occurrence order. -/
def peer_keys (peers : List PeerEndpoint) : List PyStr :=
  set_update [] (peers.map (fun p => p.ip))

/-- The `for ip, details in batch_details.items()` loop of
`Filter._filter_by_country`: append `peer_map[ip]` whenever the extracted
country is one of the targets.  `none` models the `KeyError` raised when the
batch response names an ip absent from `peer_map` (an exception discards all
appends). -/
def country_pass (targets : List PyStr) (peers : List PeerEndpoint) :
    List (PyStr × GeoDetails) → Option (List PeerEndpoint)
  | [] => some []
  | (ip, d) :: rest =>
    match countryOf d with
    | some c =>
      if c ∈ targets then
        (peer_map_lookup peers ip).bind
          (fun p => (country_pass targets peers rest).map (fun l => p :: l))
      else country_pass targets peers rest
    | none => country_pass targets peers rest

/-- `Filter._filter_by_country`: one batched geolocation call over
`list(peer_map.keys())`; on `ipinfo.error.APIError` the stage returns `[]`
(fail-closed), otherwise the items loop runs.  The resolver is the oracle
`geo`, mapping the requested ip list to a response or an API error. -/
def filter_by_country (targets : List PyStr)
    (geo : List PyStr → Except Unit (List (PyStr × GeoDetails)))
    (peers : List PeerEndpoint) : Option (List PeerEndpoint) :=
  match geo (peer_keys peers) with
  | .error _ => some []
  | .ok batch => country_pass targets peers batch

/-- Outcome of the probing of one peer in `Filter._filter_by_latency`:
`ping3.ping` returns a latency, returns `None` (ICMP gave no signal, with
the result of the `_test_port_open` TCP fallback attached), or raises
`HostUnknown` / `PingError`. -/
inductive ProbeOutcome where
  | icmpReply (latency : ℚ)
  | noSignal (tcpOpen : Bool)
  | hostUnknown
  | pingError
deriving DecidableEq

/-- The latency recorded for one probe outcome by the branch chain of
`Filter._filter_by_latency`, when the peer is kept: the measured ICMP
latency when it is at most `max_latency`, exactly `max_latency` when ICMP
gave no signal but the TCP fallback succeeded, and `none` (dropped) for
high-latency, closed-port and error outcomes. -/
def latency_entry (maxLat : ℚ) : ProbeOutcome → Option ℚ
  | .icmpReply l => if l ≤ maxLat then some l else none
  | .noSignal tcp => if tcp then some maxLat else none
  | .hostUnknown => none
  | .pingError => none

/-- The probe loop of `Filter._filter_by_latency` building `peer_latencies`:
append `(peer, recorded latency)` for each kept peer, in input order. -/
def peer_latencies (maxLat : ℚ) (probe : PeerEndpoint → ProbeOutcome) :
    List PeerEndpoint → List (PeerEndpoint × ℚ)
  | [] => []
  | p :: ps =>
    match latency_entry maxLat (probe p) with
    | some l => (p, l) :: peer_latencies maxLat probe ps
    | none => peer_latencies maxLat probe ps

/-- Comparison used by `peer_latencies.sort(key=itemgetter(1))`: order by
the latency component only. -/
def latLe (a b : PeerEndpoint × ℚ) : Prop := a.2 ≤ b.2

instance : DecidableRel latLe :=
  fun a b => inferInstanceAs (Decidable (a.2 ≤ b.2))

instance : IsTotal (PeerEndpoint × ℚ) latLe :=
  ⟨fun a b => le_total a.2 b.2⟩

instance : IsTrans (PeerEndpoint × ℚ) latLe :=
  ⟨fun _ _ _ h1 h2 => le_trans h1 h2⟩

/-- `peer_latencies.sort(key=itemgetter(1))`: Python's sort is a stable
ascending sort by the key, realised as stable insertion sort. -/
def sortByLat (l : List (PeerEndpoint × ℚ)) : List (PeerEndpoint × ℚ) :=
  l.insertionSort latLe

/-- `Filter._filter_by_latency`: probe every peer, sort the survivors by
recorded latency, and return the peers in that order. -/
def filter_by_latency (maxLat : ℚ) (probe : PeerEndpoint → ProbeOutcome)
    (peers : List PeerEndpoint) : List PeerEndpoint :=
  (sortByLat (peer_latencies maxLat probe peers)).map Prod.fst

/-- The `[PeerEndpoint.from_string(peer) for peer in peers]` comprehension:
a `ValueError` on any entry propagates, aborting the whole list. -/
def parse_all : List PyStr → Option (List PeerEndpoint)
  | [] => some []
  | s :: rest =>
    (PeerEndpoint.from_string s).bind
      (fun e => (parse_all rest).map (fun l => e :: l))

/-- `Filter.filter_peers`: parse every candidate, then the three stages in
order, then render the survivors and slice to `desired_count`.  `none`
models an exception escaping the method. -/
def filter_peers (cfg : PeerConfig)
    (geo : List PyStr → Except Unit (List (PyStr × GeoDetails)))
    (probe : PeerEndpoint → ProbeOutcome) (peers : List PyStr) :
    Option (List PyStr) :=
  (parse_all peers).bind (fun eps =>
    (filter_by_country cfg.target_countries geo (filter_invalid_peers eps)).map
      (fun byCountry =>
        pySliceTo cfg.desired_count
          ((filter_by_latency cfg.max_latency probe byCountry).map
            PeerEndpoint.render)))

/-- The peer-acquisition portion of `main` (lines 497-502): fetch the pooled
live peers once, then run the filter pipeline once over them. -/
def main_valid_peers (cfg : PeerConfig)
    (resp : Nat → Option (PyStr × List PyStr))
    (geo : List PyStr → Except Unit (List (PyStr × GeoDetails)))
    (probe : PeerEndpoint → ProbeOutcome) : Option (List PyStr) :=
  filter_peers cfg geo probe (fetch_live_peers cfg resp).live_peers

/-- Acquisition Loop as the specification words it, the refinement
companion compared against `fetch_loop` and `main_valid_peers`: each
iteration fetches a fresh batch, runs the filter pipeline over that batch,
unions the filtered survivors into the qualified set, and stops as soon as
the qualified set reaches `desired`, checking immediately after each union.
Returns (attempts, qualified). -/
def spec_loop (desired : Int) (fetch : Nat → List PyStr)
    (pipe : List PyStr → List PyStr) :
    Nat → Nat → List PyStr → Nat × List PyStr
  | 0, att, qualified => (att, qualified)
  | fuel + 1, att, qualified =>
    let q := set_update qualified (pipe (fetch att))
    if desired ≤ (q.length : Int) then (att + 1, q)
    else spec_loop desired fetch pipe fuel (att + 1) q

/-- Join the segments of a split back with the separator (used to state the
inversion property of `pySplit`). -/
def joinSep (sep : Char) : List (List Char) → List Char
  | [] => []
  | [a] => a
  | a :: rest => a ++ sep :: joinSep sep rest

/-! ### Concrete fixtures used by witnesses and counterexamples -/

/-- A geolocation oracle echoing every requested ip as being in the US. -/
def geoEchoW : List PyStr → Except Unit (List (PyStr × GeoDetails)) := fun ips =>
  Except.ok (ips.map (fun ip => (ip, GeoDetails.dictD (some "US".toList))))

/-- A probe oracle answering a 10 ms ICMP reply for every peer. -/
def probeW : PeerEndpoint → ProbeOutcome := fun _ => ProbeOutcome.icmpReply 10

/-- Config asking for one US peer within 50 ms in at most 3 attempts. -/
def cfgC1 : PeerConfig := ⟨"net".toList, ["US".toList], 50, 1, 3, []⟩

/-- Directory responses yielding one fresh peer per attempt. -/
def respC1 : Nat → Option (PyStr × List PyStr) := fun i =>
  match i with
  | 0 => some ("pk".toList, ["a@1.2.3.4:1".toList])
  | 1 => some ("pk".toList, ["b@1.2.3.5:1".toList])
  | _ => some ("pk".toList, ["c@1.2.3.6:1".toList])

/-- The batches of `respC1`, as fetched by the specification's loop. -/
def fetchC1 : Nat → List PyStr := fun i => ((respC1 i).getD ("".toList, [])).2

/-- The filter pipeline under the favourable oracles, as the specification's
loop would run it each iteration. -/
def pipeC1 : List PyStr → List PyStr := fun b =>
  (filter_peers cfgC1 geoEchoW probeW b).getD []

/-- Directory responses delivering 25 distinct peers at once. -/
def resp25W : Nat → Option (PyStr × List PyStr) := fun _ =>
  some ("pk".toList, (List.range 25).map (fun i => natToChars i))

/-- Config with 2 attempts, used with `resp25W`. -/
def cfg25W : PeerConfig := ⟨"net".toList, ["US".toList], 50, 5, 2, []⟩

/-- Directory responses delivering a single repeated peer. -/
def respSmallW : Nat → Option (PyStr × List PyStr) := fun _ =>
  some ("pk".toList, ["x@1:1".toList])

/-- Config with 2 attempts, used with `respSmallW`. -/
def cfgSmallW : PeerConfig := ⟨"net".toList, ["US".toList], 50, 5, 2, []⟩

/-- Two peers sharing one address with different node ids and ports. -/
def peerA : PeerEndpoint := ⟨"a".toList, "1.2.3.4".toList, 1⟩

/-- Two peers sharing one address with different node ids and ports. -/
def peerB : PeerEndpoint := ⟨"b".toList, "1.2.3.4".toList, 2⟩

/-- A batch-details response naming the shared address as in the US. -/
def batchW : List (PyStr × GeoDetails) :=
  [("1.2.3.4".toList, GeoDetails.dictD (some "US".toList))]

/-- A geolocation oracle that always answers `batchW`. -/
def geoFixedW : List PyStr → Except Unit (List (PyStr × GeoDetails)) := fun _ =>
  Except.ok batchW

/-! ### Lemmas about `pySplit` -/

theorem pySplit_cons (sep c : Char) (rest : List Char) :
    pySplit sep (c :: rest) =
      match pySplit sep rest with
      | [] => []
      | w :: ws => if c = sep then [] :: w :: ws else (c :: w) :: ws := rfl

theorem pySplit_cons_eq {sep : Char} {rest w : List Char} {ws : List (List Char)}
    (c : Char) (h : pySplit sep rest = w :: ws) :
    pySplit sep (c :: rest) =
      if c = sep then [] :: w :: ws else (c :: w) :: ws := by
  rw [pySplit_cons, h]

theorem pySplit_ne_nil (sep : Char) (l : List Char) : pySplit sep l ≠ [] := by
  induction l with
  | nil => simp [pySplit]
  | cons c rest ih =>
    rcases h : pySplit sep rest with _ | ⟨w, ws⟩
    · exact absurd h ih
    · rw [pySplit_cons_eq c h]
      split <;> simp

theorem pySplit_of_not_mem {sep : Char} {l : List Char} (h : sep ∉ l) :
    pySplit sep l = [l] := by
  induction l with
  | nil => rfl
  | cons c rest ih =>
    have hc : c ≠ sep := fun hc => h (hc ▸ List.mem_cons_self c rest)
    have hrest : sep ∉ rest := fun hm => h (List.mem_cons_of_mem c hm)
    simp only [pySplit, ih hrest]
    simp [hc]

theorem pySplit_append {sep : Char} {a : List Char} (b : List Char)
    (h : sep ∉ a) : pySplit sep (a ++ sep :: b) = a :: pySplit sep b := by
  induction a with
  | nil =>
    rcases hb : pySplit sep b with _ | ⟨w, ws⟩
    · exact absurd hb (pySplit_ne_nil sep b)
    · rw [List.nil_append, pySplit_cons_eq sep hb, if_pos rfl]
  | cons c rest ih =>
    have hc : c ≠ sep := fun hc => h (hc ▸ List.mem_cons_self c rest)
    have hrest : sep ∉ rest := fun hm => h (List.mem_cons_of_mem c hm)
    rw [List.cons_append, pySplit_cons_eq c (ih hrest), if_neg hc]

theorem pySplit_parts_not_mem (sep : Char) (l : List Char) :
    ∀ part ∈ pySplit sep l, sep ∉ part := by
  induction l with
  | nil =>
    intro part hp
    simp [pySplit] at hp
    simp [hp]
  | cons c rest ih =>
    intro part hp
    rcases h : pySplit sep rest with _ | ⟨w, ws⟩
    · exact absurd h (pySplit_ne_nil sep rest)
    · by_cases hc : c = sep
      · subst hc
        simp only [pySplit, h, if_pos rfl] at hp
        rcases List.mem_cons.mp hp with hp | hp
        · simp [hp]
        · exact ih part (h ▸ hp)
      · simp only [pySplit, h, if_neg hc] at hp
        rcases List.mem_cons.mp hp with hp | hp
        · subst hp
          intro hm
          rcases List.mem_cons.mp hm with hm | hm
          · exact hc hm.symm
          · exact ih w (h ▸ List.mem_cons_self w ws) hm
        · exact ih part (h ▸ List.mem_cons_of_mem w hp)

theorem joinSep_pySplit (sep : Char) (l : List Char) :
    joinSep sep (pySplit sep l) = l := by
  induction l with
  | nil => rfl
  | cons c rest ih =>
    rcases h : pySplit sep rest with _ | ⟨w, ws⟩
    · exact absurd h (pySplit_ne_nil sep rest)
    · rw [h] at ih
      by_cases hc : c = sep
      · subst hc
        rcases ws with _ | ⟨w2, ws2⟩ <;> simp_all [pySplit, joinSep]
      · rcases ws with _ | ⟨w2, ws2⟩ <;> simp_all [pySplit, joinSep]

theorem pySplit_eq_pair {sep : Char} {l a b : List Char}
    (h : pySplit sep l = [a, b]) :
    l = a ++ sep :: b ∧ sep ∉ a ∧ sep ∉ b := by
  refine ⟨?_, ?_, ?_⟩
  · have := joinSep_pySplit sep l
    rw [h] at this
    simpa [joinSep] using this.symm
  · exact pySplit_parts_not_mem sep l a (h ▸ List.mem_cons_self a [b])
  · exact pySplit_parts_not_mem sep l b
      (h ▸ List.mem_cons_of_mem a (List.mem_cons_self b []))

/-! ### Lemmas about digits and `natToChars` / `pyInt` -/

theorem isDigitCh_charOfDigit {d : Nat} (h : d < 10) :
    isDigitCh (charOfDigit d) = true := by
  interval_cases d <;> decide

theorem digitVal_charOfDigit {d : Nat} (h : d < 10) :
    digitVal (charOfDigit d) = d := by
  interval_cases d <;> decide

theorem digit_ne_underscore {c : Char} (h : isDigitCh c = true) : c ≠ '_' := by
  intro hc
  subst hc
  exact absurd h (by decide)

theorem digit_ne_plus {c : Char} (h : isDigitCh c = true) : c ≠ '+' := by
  intro hc
  subst hc
  exact absurd h (by decide)

theorem digit_ne_minus {c : Char} (h : isDigitCh c = true) : c ≠ '-' := by
  intro hc
  subst hc
  exact absurd h (by decide)

theorem digit_not_space {c : Char} (h : isDigitCh c = true) :
    isPySpace c = false := by
  simp only [isDigitCh, Bool.and_eq_true, decide_eq_true_eq] at h
  simp only [isPySpace, Bool.or_eq_false_iff, decide_eq_false_iff_not]
  omega

theorem digit_ne_at {c : Char} (h : isDigitCh c = true) : c ≠ '@' := by
  intro hc
  subst hc
  exact absurd h (by decide)

theorem digit_ne_colon {c : Char} (h : isDigitCh c = true) : c ≠ ':' := by
  intro hc
  subst hc
  exact absurd h (by decide)

theorem natToCharsAux_fuel_irrel :
    ∀ fuel1 fuel2 n acc, 0 < fuel1 → n < 10 ^ fuel1 → 0 < fuel2 →
      n < 10 ^ fuel2 → natToCharsAux fuel1 n acc = natToCharsAux fuel2 n acc := by
  intro fuel1
  induction fuel1 with
  | zero => intro _ _ _ h; omega
  | succ f1 ih =>
    intro fuel2 n acc _ h1 hp2 h2
    rcases fuel2 with _ | f2
    · omega
    · simp only [natToCharsAux]
      by_cases hq : n / 10 = 0
      · simp [hq]
      · rw [if_neg hq, if_neg hq]
        have hf1 : 0 < f1 := by
          by_contra hf
          have : f1 = 0 := by omega
          subst this
          simp at h1
          omega
        have hf2 : 0 < f2 := by
          by_contra hf
          have : f2 = 0 := by omega
          subst this
          simp at h2
          omega
        exact ih f2 (n / 10) _ hf1
          (Nat.div_lt_of_lt_mul (by rw [pow_succ] at h1; omega)) hf2
          (Nat.div_lt_of_lt_mul (by rw [pow_succ] at h2; omega))

theorem lt_ten_pow_self (n : Nat) : n < 10 ^ n ∨ n = 0 := by
  rcases Nat.eq_zero_or_pos n with h | h
  · right; exact h
  · left
    exact Nat.lt_pow_self (by norm_num) n

theorem lt_ten_pow_succ (n : Nat) : n < 10 ^ (n + 1) := by
  rcases lt_ten_pow_self n with h | h
  · calc n < 10 ^ n := h
      _ ≤ 10 ^ (n + 1) := Nat.pow_le_pow_right (by norm_num) (Nat.le_succ n)
  · subst h; norm_num

theorem natToCharsAux_eq_append :
    ∀ n acc, natToCharsAux (n + 1) n acc = natToChars n ++ acc := by
  intro n
  induction n using Nat.strong_induction_on with
  | _ n ih =>
    intro acc
    by_cases hq : n / 10 = 0
    · simp [natToCharsAux, natToChars, hq]
    · have h10 : 10 ≤ n := by
        by_contra hlt
        exact hq (Nat.div_eq_of_lt (by omega))
      have hdivlt : n / 10 < n := Nat.div_lt_self (by omega) (by norm_num)
      have hv1 : n / 10 < 10 ^ n := by
        calc n / 10 ≤ n := Nat.div_le_self n 10
          _ < 10 ^ n := by
            rcases lt_ten_pow_self n with h | h
            · exact h
            · omega
      simp only [natToCharsAux, if_neg hq, natToChars]
      rw [natToCharsAux_fuel_irrel n (n / 10 + 1) (n / 10) _ (by omega) hv1
          (by omega) (lt_ten_pow_succ _),
        natToCharsAux_fuel_irrel n (n / 10 + 1) (n / 10) _ (by omega) hv1
          (by omega) (lt_ten_pow_succ _),
        ih (n / 10) hdivlt, ih (n / 10) hdivlt, List.append_assoc]
      rfl

theorem natToChars_small {n : Nat} (h : n < 10) :
    natToChars n = [charOfDigit n] := by
  have hq : n / 10 = 0 := Nat.div_eq_of_lt h
  have hm : n % 10 = n := Nat.mod_eq_of_lt h
  simp [natToChars, natToCharsAux, hq, hm]

theorem natToChars_big {n : Nat} (h : 10 ≤ n) :
    natToChars n = natToChars (n / 10) ++ [charOfDigit (n % 10)] := by
  have hq : n / 10 ≠ 0 := by
    intro h0
    have := Nat.div_eq_of_lt (show n < 10 by omega)
    omega
  conv_lhs => rw [natToChars]
  simp only [natToCharsAux, if_neg hq]
  have hv1 : n / 10 < 10 ^ n := by
    calc n / 10 ≤ n := Nat.div_le_self n 10
      _ < 10 ^ n := by
        rcases lt_ten_pow_self n with hl | hl
        · exact hl
        · omega
  rw [natToCharsAux_fuel_irrel n (n / 10 + 1) (n / 10) _ (by omega) hv1
      (by omega) (lt_ten_pow_succ _),
    natToCharsAux_eq_append (n / 10)]

theorem natToChars_digits (n : Nat) : ∀ c ∈ natToChars n, isDigitCh c = true := by
  induction n using Nat.strong_induction_on with
  | _ n ih =>
    intro c hc
    by_cases h : n < 10
    · rw [natToChars_small h] at hc
      simp at hc
      subst hc
      exact isDigitCh_charOfDigit h
    · rw [natToChars_big (by omega)] at hc
      rcases List.mem_append.mp hc with hc | hc
      · exact ih (n / 10) (Nat.div_lt_self (by omega) (by norm_num)) c hc
      · simp at hc
        subst hc
        exact isDigitCh_charOfDigit (Nat.mod_lt n (by norm_num))

theorem natToChars_ne_nil (n : Nat) : natToChars n ≠ [] := by
  by_cases h : n < 10
  · rw [natToChars_small h]; simp
  · rw [natToChars_big (by omega)]; simp

theorem digitsVal_append (l : List Char) (c : Char) :
    digitsVal (l ++ [c]) = digitsVal l * 10 + digitVal c := by
  simp [digitsVal, List.foldl_append]

theorem digitsVal_natToChars (n : Nat) : digitsVal (natToChars n) = n := by
  induction n using Nat.strong_induction_on with
  | _ n ih =>
    by_cases h : n < 10
    · rw [natToChars_small h]
      simp [digitsVal, digitVal_charOfDigit h]
    · rw [natToChars_big (by omega), digitsVal_append,
        ih (n / 10) (Nat.div_lt_self (by omega) (by norm_num)),
        digitVal_charOfDigit (Nat.mod_lt n (by norm_num))]
      omega

theorem digitsRest_cons (c : Char) (rest : List Char) :
    digitsRest (c :: rest) =
      if c = '_' then
        match rest with
        | [] => false
        | c2 :: rest2 => isDigitCh c2 && digitsRest rest2
      else isDigitCh c && digitsRest rest := by
  rw [digitsRest.eq_def]

theorem digitsRest_of_digits {l : List Char}
    (h : ∀ c ∈ l, isDigitCh c = true) : digitsRest l = true := by
  induction l with
  | nil => rfl
  | cons c rest ih =>
    have hc : isDigitCh c = true := h c (List.mem_cons_self c rest)
    rw [digitsRest_cons, if_neg (digit_ne_underscore hc), hc,
      ih (fun x hx => h x (List.mem_cons_of_mem c hx))]
    rfl

theorem filter_underscore_of_digits {l : List Char}
    (h : ∀ c ∈ l, isDigitCh c = true) :
    l.filter (fun x => decide (x ≠ '_')) = l := by
  apply List.filter_eq_self.mpr
  intro c hc
  simpa using digit_ne_underscore (h c hc)

theorem pyIntCore_of_digits {l : List Char}
    (h : ∀ c ∈ l, isDigitCh c = true) (hne : l ≠ []) :
    pyIntCore l = some (digitsVal l) := by
  rcases l with _ | ⟨c, rest⟩
  · exact absurd rfl hne
  · have hc : isDigitCh c = true := h c (List.mem_cons_self c rest)
    have hrest : digitsRest rest = true :=
      digitsRest_of_digits (fun x hx => h x (List.mem_cons_of_mem c hx))
    simp only [pyIntCore, hc, hrest, Bool.and_self, if_pos]
    rw [filter_underscore_of_digits h]

theorem dropWhile_space_eq_self {l : List Char}
    (h : ∀ c ∈ l, isPySpace c = false) : l.dropWhile isPySpace = l := by
  rcases l with _ | ⟨c, rest⟩
  · rfl
  · rw [List.dropWhile_cons, h c (List.mem_cons_self c rest)]
    simp

theorem pyStrip_of_no_space {l : List Char}
    (h : ∀ c ∈ l, isPySpace c = false) : pyStrip l = l := by
  unfold pyStrip
  rw [dropWhile_space_eq_self h,
    dropWhile_space_eq_self (fun c hc => h c (List.mem_reverse.mp hc)),
    List.reverse_reverse]

theorem pyInt_eq {s : List Char} {c : Char} {rest : List Char}
    (h : pyStrip s = c :: rest) :
    pyInt s =
      if c = '+' then (pyIntCore rest).map (fun n => (n : Int))
      else if c = '-' then (pyIntCore rest).map (fun n => -(n : Int))
      else (pyIntCore (c :: rest)).map (fun n => (n : Int)) := by
  unfold pyInt
  rw [h]

theorem pyInt_natToChars (n : Nat) : pyInt (natToChars n) = some (n : Int) := by
  have hdig := natToChars_digits n
  have hstrip : pyStrip (natToChars n) = natToChars n :=
    pyStrip_of_no_space (fun c hc => digit_not_space (hdig c hc))
  obtain ⟨c, rest, hl⟩ : ∃ c rest, natToChars n = c :: rest := by
    rcases h : natToChars n with _ | ⟨c, rest⟩
    · exact absurd h (natToChars_ne_nil n)
    · exact ⟨c, rest, rfl⟩
  have hc : isDigitCh c = true := hdig c (hl ▸ List.mem_cons_self c rest)
  have hs2 : pyStrip (natToChars n) = c :: rest := hstrip.trans hl
  rw [pyInt_eq hs2, if_neg (digit_ne_plus hc), if_neg (digit_ne_minus hc), ← hl,
    pyIntCore_of_digits hdig (natToChars_ne_nil n), digitsVal_natToChars]
  rfl

theorem pyInt_intToChars (z : Int) : pyInt (intToChars z) = some z := by
  rcases z with n | m
  · exact pyInt_natToChars n
  · have hdig := natToChars_digits (m + 1)
    have hne := natToChars_ne_nil (m + 1)
    have hstrip : pyStrip ('-' :: natToChars (m + 1)) = '-' :: natToChars (m + 1) := by
      apply pyStrip_of_no_space
      intro c hc
      rcases List.mem_cons.mp hc with hc | hc
      · subst hc; decide
      · exact digit_not_space (hdig c hc)
    show pyInt ('-' :: natToChars (m + 1)) = some (Int.negSucc m)
    rw [pyInt_eq hstrip, if_neg (show ('-' : Char) ≠ '+' by decide), if_pos rfl,
      pyIntCore_of_digits hdig hne, digitsVal_natToChars]
    rfl

/-- Characters appearing in `intToChars` are digits or a leading minus, so
never `@`, `:`, `+` or whitespace. -/
theorem intToChars_ne_at (z : Int) : '@' ∉ intToChars z := by
  intro hm
  rcases z with n | m
  · exact digit_ne_at (natToChars_digits n '@' hm) rfl
  · rcases List.mem_cons.mp hm with hc | hc
    · exact absurd hc.symm (by decide)
    · exact digit_ne_at (natToChars_digits (m + 1) '@' hc) rfl

theorem intToChars_ne_colon (z : Int) : ':' ∉ intToChars z := by
  intro hm
  rcases z with n | m
  · exact digit_ne_colon (natToChars_digits n ':' hm) rfl
  · rcases List.mem_cons.mp hm with hc | hc
    · exact absurd hc.symm (by decide)
    · exact digit_ne_colon (natToChars_digits (m + 1) ':' hc) rfl

/-! ### Lemmas about `from_string` and `render` -/

theorem from_string_eq {s a b ip ps : PyStr}
    (h1 : pySplit '@' s = [a, b]) (h2 : pySplit ':' b = [ip, ps]) :
    PeerEndpoint.from_string s =
      (pyInt ps).map (fun port => (⟨a, ip, port⟩ : PeerEndpoint)) := by
  unfold PeerEndpoint.from_string
  rw [h1]
  show (match pySplit ':' b with
    | [ip2, portStr] => (pyInt portStr).map (fun port => (⟨a, ip2, port⟩ : PeerEndpoint))
    | _ => none) = _
  rw [h2]

theorem from_string_render {e : PeerEndpoint} (h1 : '@' ∉ e.node_id)
    (h2 : '@' ∉ e.ip) (h3 : ':' ∉ e.ip) :
    PeerEndpoint.from_string e.render = some e := by
  have hb : '@' ∉ e.ip ++ ':' :: intToChars e.port := by
    intro hm
    rcases List.mem_append.mp hm with hm | hm
    · exact h2 hm
    · rcases List.mem_cons.mp hm with hm | hm
      · exact absurd hm (by decide)
      · exact intToChars_ne_at e.port hm
  have hs1 : pySplit '@' e.render = [e.node_id, e.ip ++ ':' :: intToChars e.port] := by
    rw [PeerEndpoint.render, pySplit_append _ h1, pySplit_of_not_mem hb]
  have hs2 : pySplit ':' (e.ip ++ ':' :: intToChars e.port) = [e.ip, intToChars e.port] := by
    rw [pySplit_append _ h3, pySplit_of_not_mem (intToChars_ne_colon e.port)]
  rw [from_string_eq hs1 hs2, pyInt_intToChars]
  rfl

theorem from_string_some {s : PyStr} {e : PeerEndpoint}
    (h : PeerEndpoint.from_string s = some e) :
    ∃ ps, s = e.node_id ++ '@' :: (e.ip ++ ':' :: ps) ∧
      pyInt ps = some e.port ∧ '@' ∉ e.node_id ∧ '@' ∉ e.ip ∧
      ':' ∉ e.ip ∧ ':' ∉ ps := by
  rcases h1 : pySplit '@' s with _ | ⟨a, _ | ⟨b, _ | ⟨c, r⟩⟩⟩
  · unfold PeerEndpoint.from_string at h; rw [h1] at h; simp at h
  · unfold PeerEndpoint.from_string at h; rw [h1] at h; simp at h
  case cons.cons.cons =>
    unfold PeerEndpoint.from_string at h; rw [h1] at h; simp at h
  rcases h2 : pySplit ':' b with _ | ⟨ip, _ | ⟨ps, _ | ⟨d, r2⟩⟩⟩
  · unfold PeerEndpoint.from_string at h; rw [h1] at h; simp [h2] at h
  · unfold PeerEndpoint.from_string at h; rw [h1] at h; simp [h2] at h
  case cons.cons.cons =>
    unfold PeerEndpoint.from_string at h; rw [h1] at h; simp [h2] at h
  rw [from_string_eq h1 h2] at h
  simp only [Option.map_eq_some'] at h
  obtain ⟨port, hport, he⟩ := h
  obtain ⟨hsab, hna, hnb⟩ := pySplit_eq_pair h1
  obtain ⟨hbip, hcip, hcps⟩ := pySplit_eq_pair h2
  refine ⟨ps, ?_, ?_, ?_, ?_, ?_, ?_⟩
  · rw [hsab, hbip, ← he]
  · rw [← he, hport]
  · rw [← he]; exact hna
  · rw [← he]
    intro hm
    exact hnb (hbip ▸ List.mem_append_left _ hm)
  · rw [← he]; exact hcip
  · exact hcps

theorem from_string_render_of_parsed {s : PyStr} {e : PeerEndpoint}
    (h : PeerEndpoint.from_string s = some e) :
    PeerEndpoint.from_string e.render = some e := by
  obtain ⟨ps, _, _, hna, hnb, hcip, _⟩ := from_string_some h
  exact from_string_render hna hnb hcip

/-! ### Lemmas about the latency stage -/

theorem latency_entry_eq_some (maxLat : ℚ) (o : ProbeOutcome) (l : ℚ) :
    latency_entry maxLat o = some l ↔
      (o = .icmpReply l ∧ l ≤ maxLat) ∨ (o = .noSignal true ∧ l = maxLat) := by
  cases o with
  | icmpReply r =>
    simp only [latency_entry]
    by_cases h : r ≤ maxLat
    · rw [if_pos h]
      constructor
      · intro he
        obtain rfl : r = l := Option.some_inj.mp he
        exact Or.inl ⟨rfl, h⟩
      · rintro (⟨he, hl⟩ | ⟨he, _⟩)
        · obtain rfl : r = l := by injection he
          rfl
        · exact absurd he (by simp)
    · rw [if_neg h]
      constructor
      · intro he
        exact absurd he (by simp)
      · rintro (⟨he, hl⟩ | ⟨he, _⟩)
        · obtain rfl : r = l := by injection he
          exact absurd hl h
        · exact absurd he (by simp)
  | noSignal tcp =>
    cases tcp
    · simp [latency_entry]
    · have hv : latency_entry maxLat (ProbeOutcome.noSignal true) = some maxLat := by
        simp [latency_entry]
      rw [hv]
      constructor
      · intro he
        obtain rfl : maxLat = l := Option.some_inj.mp he
        exact Or.inr ⟨rfl, rfl⟩
      · rintro (⟨he, _⟩ | ⟨_, rfl⟩)
        · exact absurd he (by simp)
        · rfl
  | hostUnknown => simp [latency_entry]
  | pingError => simp [latency_entry]

theorem mem_peer_latencies (maxLat : ℚ) (probe : PeerEndpoint → ProbeOutcome)
    (peers : List PeerEndpoint) (p : PeerEndpoint) (l : ℚ) :
    (p, l) ∈ peer_latencies maxLat probe peers ↔
      p ∈ peers ∧ latency_entry maxLat (probe p) = some l := by
  induction peers with
  | nil => simp [peer_latencies]
  | cons a ps ih =>
    rcases h : latency_entry maxLat (probe a) with _ | la <;>
      simp only [peer_latencies, h]
    · rw [ih]
      constructor
      · rintro ⟨hm, he⟩
        exact ⟨List.mem_cons_of_mem a hm, he⟩
      · rintro ⟨hp, he⟩
        rcases List.mem_cons.mp hp with rfl | hm
        · rw [h] at he; exact absurd he (by simp)
        · exact ⟨hm, he⟩
    · constructor
      · intro hm
        rcases List.mem_cons.mp hm with hm | hm
        · obtain ⟨hp, hl⟩ := Prod.ext_iff.mp hm
          simp only at hp hl
          subst hp; subst hl
          exact ⟨List.mem_cons_self _ _, h⟩
        · obtain ⟨hm, he⟩ := ih.mp hm
          exact ⟨List.mem_cons_of_mem a hm, he⟩
      · rintro ⟨hp, he⟩
        rcases List.mem_cons.mp hp with rfl | hm
        · rw [h] at he
          obtain rfl := (Option.some_inj.mp he).symm
          exact List.mem_cons_self _ _
        · exact List.mem_cons_of_mem _ (ih.mpr ⟨hm, he⟩)

theorem sortByLat_perm (l : List (PeerEndpoint × ℚ)) :
    List.Perm (sortByLat l) l :=
  List.perm_insertionSort latLe l

theorem sortByLat_sorted (l : List (PeerEndpoint × ℚ)) :
    List.Pairwise latLe (sortByLat l) :=
  List.sorted_insertionSort latLe l

theorem filter_orderedInsert (x : PeerEndpoint × ℚ) (l : List (PeerEndpoint × ℚ))
    (q : ℚ) :
    (List.orderedInsert latLe x l).filter (fun z => decide (z.2 = q)) =
      if x.2 = q then x :: l.filter (fun z => decide (z.2 = q))
      else l.filter (fun z => decide (z.2 = q)) := by
  induction l with
  | nil =>
    by_cases h : x.2 = q <;> simp [List.orderedInsert, List.filter_cons, h]
  | cons y ys ih =>
    by_cases hxy : latLe x y
    · rw [List.orderedInsert_of_le latLe ys hxy]
      by_cases h : x.2 = q <;> simp [List.filter_cons, h]
    · have hyx : y.2 < x.2 := lt_of_not_le hxy
      have hstep : List.orderedInsert latLe x (y :: ys) =
          y :: List.orderedInsert latLe x ys := by
        simp [List.orderedInsert, hxy]
      rw [hstep]
      by_cases h : x.2 = q
      · have hyq : ¬(y.2 = q) := by
          intro hq
          rw [hq, h] at hyx
          exact lt_irrefl q hyx
        simp [List.filter_cons, hyq, ih, h]
      · by_cases hyq : y.2 = q <;> simp [List.filter_cons, hyq, ih, h]

theorem sortByLat_filter (l : List (PeerEndpoint × ℚ)) (q : ℚ) :
    (sortByLat l).filter (fun z => decide (z.2 = q)) =
      l.filter (fun z => decide (z.2 = q)) := by
  induction l with
  | nil => rfl
  | cons x xs ih =>
    show (List.orderedInsert latLe x (sortByLat xs)).filter _ = _
    rw [filter_orderedInsert]
    by_cases h : x.2 = q <;> simp [List.filter_cons, h, ih]

theorem mem_filter_by_latency (maxLat : ℚ) (probe : PeerEndpoint → ProbeOutcome)
    (peers : List PeerEndpoint) (p : PeerEndpoint) :
    p ∈ filter_by_latency maxLat probe peers ↔
      p ∈ peers ∧ ∃ l, latency_entry maxLat (probe p) = some l := by
  unfold filter_by_latency
  constructor
  · intro hm
    obtain ⟨z, hz, hzp⟩ := List.mem_map.mp hm
    have hz2 : z ∈ peer_latencies maxLat probe peers :=
      (sortByLat_perm _).mem_iff.mp hz
    obtain ⟨hp, he⟩ := (mem_peer_latencies maxLat probe peers z.1 z.2).mp
      (by rw [Prod.mk.eta]; exact hz2)
    subst hzp
    exact ⟨hp, z.2, he⟩
  · rintro ⟨hp, l, he⟩
    apply List.mem_map.mpr
    exact ⟨(p, l), (sortByLat_perm _).mem_iff.mpr
      ((mem_peer_latencies maxLat probe peers p l).mpr ⟨hp, he⟩), rfl⟩

/-! ### Lemmas about the geography stage -/

theorem peer_map_lookup_ip {peers : List PeerEndpoint} {ip : PyStr}
    {p : PeerEndpoint} (h : peer_map_lookup peers ip = some p) : p.ip = ip := by
  unfold peer_map_lookup at h
  suffices H : ∀ (l : List PeerEndpoint) (acc : Option PeerEndpoint),
      (∀ q, acc = some q → q.ip = ip) →
      l.foldl (fun acc p => if p.ip = ip then some p else acc) acc = some p →
      p.ip = ip by
    exact H peers none (fun q hq => by cases hq) h
  intro l
  induction l with
  | nil =>
    intro acc hacc h'
    exact hacc p h'
  | cons x xs ih =>
    intro acc hacc h'
    rw [List.foldl_cons] at h'
    by_cases hx : x.ip = ip
    · refine ih _ ?_ h'
      intro q hq
      rw [if_pos hx] at hq
      obtain rfl := Option.some_inj.mp hq
      exact hx
    · refine ih _ ?_ h'
      intro q hq
      rw [if_neg hx] at hq
      exact hacc q hq

theorem country_pass_spec {targets : List PyStr} {peers : List PeerEndpoint} :
    ∀ {batch : List (PyStr × GeoDetails)} {out : List PeerEndpoint},
      country_pass targets peers batch = some out →
      ∀ p ∈ out, ∃ d, (p.ip, d) ∈ batch ∧ peer_map_lookup peers p.ip = some p ∧
        ∃ c, countryOf d = some c ∧ c ∈ targets := by
  intro batch
  induction batch with
  | nil =>
    intro out h p hp
    obtain rfl : ([] : List PeerEndpoint) = out :=
      Option.some_inj.mp (by rw [← h]; rfl)
    exact absurd hp (List.not_mem_nil p)
  | cons item rest ih =>
    obtain ⟨ip, d⟩ := item
    intro out h p hp
    rcases hc : countryOf d with _ | c
    · simp only [country_pass, hc] at h
      obtain ⟨d', hd', hlk, hcc⟩ := ih h p hp
      exact ⟨d', List.mem_cons_of_mem _ hd', hlk, hcc⟩
    · simp only [country_pass, hc] at h
      by_cases hct : c ∈ targets
      · rw [if_pos hct] at h
        rcases hl : peer_map_lookup peers ip with _ | p0
        · rw [hl] at h
          exact absurd h (by simp)
        · rw [hl] at h
          simp only [Option.bind_eq_bind, Option.some_bind] at h
          rcases hr : country_pass targets peers rest with _ | out'
          · rw [hr] at h
            exact absurd h (by simp)
          · rw [hr] at h
            simp only [Option.map_some'] at h
            obtain rfl : p0 :: out' = out := Option.some_inj.mp h
            rcases List.mem_cons.mp hp with rfl | hm
            · have hip : p.ip = ip := peer_map_lookup_ip hl
              refine ⟨d, ?_, ?_, c, hc, hct⟩
              · rw [hip]; exact List.mem_cons_self _ _
              · rw [hip]; exact hl
            · obtain ⟨d', hd', hlk, hcc⟩ := ih hr p hm
              exact ⟨d', List.mem_cons_of_mem _ hd', hlk, hcc⟩
      · rw [if_neg hct] at h
        obtain ⟨d', hd', hlk, hcc⟩ := ih h p hp
        exact ⟨d', List.mem_cons_of_mem _ hd', hlk, hcc⟩

theorem country_pass_nodup {targets : List PyStr} {peers : List PeerEndpoint} :
    ∀ {batch : List (PyStr × GeoDetails)} {out : List PeerEndpoint},
      country_pass targets peers batch = some out →
      (batch.map Prod.fst).Nodup →
      (out.map (fun p => p.ip)).Nodup := by
  intro batch
  induction batch with
  | nil =>
    intro out h _
    obtain rfl : ([] : List PeerEndpoint) = out :=
      Option.some_inj.mp (by rw [← h]; rfl)
    simp
  | cons item rest ih =>
    obtain ⟨ip, d⟩ := item
    intro out h hnd
    have hnd' : (rest.map Prod.fst).Nodup := (List.nodup_cons.mp hnd).2
    have hipn : ip ∉ rest.map Prod.fst := (List.nodup_cons.mp hnd).1
    rcases hc : countryOf d with _ | c
    · simp only [country_pass, hc] at h
      exact ih h hnd'
    · simp only [country_pass, hc] at h
      by_cases hct : c ∈ targets
      · rw [if_pos hct] at h
        rcases hl : peer_map_lookup peers ip with _ | p0
        · rw [hl] at h
          exact absurd h (by simp)
        · rw [hl] at h
          simp only [Option.bind_eq_bind, Option.some_bind] at h
          rcases hr : country_pass targets peers rest with _ | out'
          · rw [hr] at h
            exact absurd h (by simp)
          · rw [hr] at h
            simp only [Option.map_some'] at h
            obtain rfl : p0 :: out' = out := Option.some_inj.mp h
            rw [List.map_cons, List.nodup_cons]
            refine ⟨?_, ih hr hnd'⟩
            intro hmem
            obtain ⟨p', hp', hip'⟩ := List.mem_map.mp hmem
            obtain ⟨d', hd', _, _⟩ := country_pass_spec hr p' hp'
            rw [hip', peer_map_lookup_ip hl] at hd'
            exact hipn (List.mem_map.mpr ⟨(ip, d'), hd', rfl⟩)
      · rw [if_neg hct] at h
        exact ih h hnd'

/-! ### Lemmas about `parse_all` -/

theorem parse_all_none {peers : List PyStr} {s : PyStr} (hs : s ∈ peers)
    (h : PeerEndpoint.from_string s = none) : parse_all peers = none := by
  induction peers with
  | nil => exact absurd hs (List.not_mem_nil s)
  | cons a ps ih =>
    rcases List.mem_cons.mp hs with rfl | hm
    · simp [parse_all, h]
    · rcases ha : PeerEndpoint.from_string a with _ | e
      · simp [parse_all, ha]
      · simp [parse_all, ha, ih hm]

theorem parse_all_some {peers : List PyStr}
    (h : ∀ s ∈ peers, (PeerEndpoint.from_string s).isSome) :
    parse_all peers = some (peers.filterMap PeerEndpoint.from_string) := by
  induction peers with
  | nil => rfl
  | cons a ps ih =>
    obtain ⟨e, he⟩ := Option.isSome_iff_exists.mp (h a (List.mem_cons_self a ps))
    rw [List.filterMap_cons_some he]
    simp [parse_all, he, ih (fun s hs => h s (List.mem_cons_of_mem a hs))]

/-! ### Lemmas about the fetch loop -/

theorem pool_after_some {resp : Nat → Option (PyStr × List PyStr)} {k : Nat}
    {d : PyStr × List PyStr} (h : resp k = some d) :
    pool_after resp (k + 1) = set_update (pool_after resp k) d.2 := by
  simp [pool_after, h]

theorem pool_after_none {resp : Nat → Option (PyStr × List PyStr)} {k : Nat}
    (h : resp k = none) : pool_after resp (k + 1) = pool_after resp k := by
  simp [pool_after, h]

theorem last_after_some {resp : Nat → Option (PyStr × List PyStr)} {k : Nat}
    {d : PyStr × List PyStr} (h : resp k = some d) :
    last_after resp (k + 1) = some d := by
  simp [last_after, h]

theorem last_after_none {resp : Nat → Option (PyStr × List PyStr)} {k : Nat}
    (h : resp k = none) : last_after resp (k + 1) = last_after resp k := by
  simp [last_after, h]

theorem fetch_loop_spec (resp : Nat → Option (PyStr × List PyStr)) :
    ∀ (fuel att : Nat),
      att ≤ (fetch_loop resp fuel att (pool_after resp att) (last_after resp att)).1 ∧
      (fetch_loop resp fuel att (pool_after resp att) (last_after resp att)).1 ≤ att + fuel ∧
      (fetch_loop resp fuel att (pool_after resp att) (last_after resp att)).2.1 =
        pool_after resp
          (fetch_loop resp fuel att (pool_after resp att) (last_after resp att)).1 ∧
      (fetch_loop resp fuel att (pool_after resp att) (last_after resp att)).2.2 =
        last_after resp
          (fetch_loop resp fuel att (pool_after resp att) (last_after resp att)).1 ∧
      (∀ k, att ≤ k →
        k < (fetch_loop resp fuel att (pool_after resp att) (last_after resp att)).1 →
        (pool_after resp k).length < 25) ∧
      ((fetch_loop resp fuel att (pool_after resp att) (last_after resp att)).1 <
          att + fuel →
        25 ≤ (pool_after resp
          (fetch_loop resp fuel att (pool_after resp att) (last_after resp att)).1).length) := by
  intro fuel
  induction fuel with
  | zero =>
    intro att
    refine ⟨le_refl att, le_refl att, rfl, rfl, ?_, ?_⟩
    · intro k h1 h2
      exact absurd (lt_of_le_of_lt h1 h2) (lt_irrefl att)
    · intro h
      exact absurd h (lt_irrefl att)
  | succ fuel ih =>
    intro att
    by_cases hlen : (pool_after resp att).length < 25
    · rcases hresp : resp att with _ | d
      · have hstep : fetch_loop resp (fuel + 1) att (pool_after resp att)
            (last_after resp att) =
            fetch_loop resp fuel (att + 1) (pool_after resp (att + 1))
              (last_after resp (att + 1)) := by
          rw [pool_after_none hresp, last_after_none hresp]
          simp only [fetch_loop, if_pos hlen, hresp]
        rw [hstep]
        obtain ⟨i1, i2, i3, i4, i5, i6⟩ := ih (att + 1)
        refine ⟨le_trans (Nat.le_succ att) i1, by omega, i3, i4, ?_, by omega⟩
        intro k h1 h2
        rcases Nat.eq_or_lt_of_le h1 with rfl | h1'
        · exact hlen
        · exact i5 k h1' h2
      · have hstep : fetch_loop resp (fuel + 1) att (pool_after resp att)
            (last_after resp att) =
            fetch_loop resp fuel (att + 1) (pool_after resp (att + 1))
              (last_after resp (att + 1)) := by
          rw [pool_after_some hresp, last_after_some hresp]
          simp only [fetch_loop, if_pos hlen, hresp]
        rw [hstep]
        obtain ⟨i1, i2, i3, i4, i5, i6⟩ := ih (att + 1)
        refine ⟨le_trans (Nat.le_succ att) i1, by omega, i3, i4, ?_, by omega⟩
        intro k h1 h2
        rcases Nat.eq_or_lt_of_le h1 with rfl | h1'
        · exact hlen
        · exact i5 k h1' h2
    · have hstep : fetch_loop resp (fuel + 1) att (pool_after resp att)
          (last_after resp att) =
          (att, pool_after resp att, last_after resp att) := by
        simp only [fetch_loop, if_neg hlen]
      rw [hstep]
      refine ⟨le_refl att, by omega, rfl, rfl, ?_, ?_⟩
      · intro k h1 h2
        exact absurd (lt_of_le_of_lt h1 h2) (lt_irrefl att)
      · intro _
        show 25 ≤ (pool_after resp att).length
        omega

/-! ### Lemmas about the validity stage, slicing, and `fetch_live_peers` -/

theorem mem_filter_invalid_peers (peers : List PeerEndpoint) (p : PeerEndpoint) :
    p ∈ filter_invalid_peers peers ↔ p ∈ peers ∧ p.ip ∉ loopbacks := by
  unfold filter_invalid_peers
  rw [List.mem_filter]
  simp

theorem filter_invalid_peers_sublist (peers : List PeerEndpoint) :
    (filter_invalid_peers peers).Sublist peers :=
  List.filter_sublist peers

theorem pySliceTo_length_le {k : Int} (hk : 0 ≤ k) (l : List α) :
    ((pySliceTo k l).length : Int) ≤ k := by
  unfold pySliceTo
  rw [if_pos hk]
  calc ((l.take k.toNat).length : Int) ≤ (k.toNat : Int) := by
        exact_mod_cast List.length_take_le k.toNat l
    _ = k := Int.toNat_of_nonneg hk

theorem filter_peers_eq {cfg : PeerConfig}
    {geo : List PyStr → Except Unit (List (PyStr × GeoDetails))}
    {probe : PeerEndpoint → ProbeOutcome} {peers : List PyStr}
    {eps : List PeerEndpoint} {byCountry : List PeerEndpoint}
    (h1 : parse_all peers = some eps)
    (h2 : filter_by_country cfg.target_countries geo (filter_invalid_peers eps) =
      some byCountry) :
    filter_peers cfg geo probe peers =
      some (pySliceTo cfg.desired_count
        ((filter_by_latency cfg.max_latency probe byCountry).map
          PeerEndpoint.render)) := by
  unfold filter_peers
  rw [h1, Option.some_bind, h2, Option.map_some']

theorem filter_peers_length {cfg : PeerConfig}
    {geo : List PyStr → Except Unit (List (PyStr × GeoDetails))}
    {probe : PeerEndpoint → ProbeOutcome} {peers : List PyStr}
    {out : List PyStr} (hd : 0 ≤ cfg.desired_count)
    (h : filter_peers cfg geo probe peers = some out) :
    (out.length : Int) ≤ cfg.desired_count := by
  unfold filter_peers at h
  rcases hp : parse_all peers with _ | eps
  · rw [hp] at h
    exact absurd h (by simp)
  · rw [hp, Option.some_bind] at h
    rcases hc : filter_by_country cfg.target_countries geo
        (filter_invalid_peers eps) with _ | byCountry
    · rw [hc] at h
      exact absurd h (by simp)
    · rw [hc, Option.map_some'] at h
      obtain rfl := (Option.some_inj.mp h).symm
      exact pySliceTo_length_le hd _

theorem fetch_live_peers_len_le (cfg : PeerConfig)
    (resp : Nat → Option (PyStr × List PyStr)) :
    (fetch_live_peers cfg resp).live_peers.length ≤ 25 := by
  unfold fetch_live_peers
  rcases h : (fetch_loop resp cfg.max_attempts.toNat 0 [] none).2.2 with _ | d
  · simp [h]
  · simp only [h]
    exact le_trans (List.length_take_le 25 _) (le_refl 25)

theorem fetch_live_peers_desired_irrel (cfg : PeerConfig)
    (resp : Nat → Option (PyStr × List PyStr)) (d d' : Int) :
    fetch_live_peers { cfg with desired_count := d } resp =
      fetch_live_peers { cfg with desired_count := d' } resp := rfl

/-! ### Claim theorems -/

/-- C2: in the latency stage, a peer with an ICMP latency at most the
ceiling is kept with that measured latency; a peer whose ICMP latency
exceeds the ceiling is dropped; a peer with no ICMP signal is kept with
recorded latency exactly the ceiling when the TCP fallback succeeds and
dropped when it fails; and host-unknown or ping-error peers are dropped.
Stated as an exact membership characterisation of the recorded
`peer_latencies` list and of the stage's final output. -/
theorem claim_C2_latency_policy (maxLat : ℚ) (probe : PeerEndpoint → ProbeOutcome)
    (peers : List PeerEndpoint) (p : PeerEndpoint) (l : ℚ) :
    ((p, l) ∈ peer_latencies maxLat probe peers ↔
      p ∈ peers ∧ ((probe p = .icmpReply l ∧ l ≤ maxLat) ∨
        (probe p = .noSignal true ∧ l = maxLat))) ∧
    (p ∈ filter_by_latency maxLat probe peers ↔
      p ∈ peers ∧ ((∃ r, probe p = .icmpReply r ∧ r ≤ maxLat) ∨
        probe p = .noSignal true)) := by
  constructor
  · rw [mem_peer_latencies maxLat probe peers p l,
      latency_entry_eq_some maxLat (probe p) l]
  · rw [mem_filter_by_latency maxLat probe peers p]
    constructor
    · rintro ⟨hp, r, he⟩
      rw [latency_entry_eq_some maxLat (probe p) r] at he
      rcases he with ⟨ho, hr⟩ | ⟨ho, _⟩
      · exact ⟨hp, Or.inl ⟨r, ho, hr⟩⟩
      · exact ⟨hp, Or.inr ho⟩
    · rintro ⟨hp, ⟨r, ho, hr⟩ | ho⟩
      · exact ⟨hp, r,
          (latency_entry_eq_some maxLat (probe p) r).mpr (Or.inl ⟨ho, hr⟩)⟩
      · exact ⟨hp, maxLat,
          (latency_entry_eq_some maxLat (probe p) maxLat).mpr (Or.inr ⟨ho, rfl⟩)⟩

/-- C6: the survivors of the latency stage are the recorded pairs sorted
ascending by recorded latency with a stable sort (the sorted list is a
sorted permutation of the recorded list in which the entries of any fixed
latency keep their original relative order), and the pipeline's final
output is truncated to at most `desired_count` entries. -/
theorem claim_C6_sorted_truncated (maxLat : ℚ)
    (probe : PeerEndpoint → ProbeOutcome) (peers : List PeerEndpoint)
    (cfg : PeerConfig) (geo : List PyStr → Except Unit (List (PyStr × GeoDetails)))
    (raw : List PyStr) (out : List PyStr) (q : ℚ) :
    List.Pairwise latLe (sortByLat (peer_latencies maxLat probe peers)) ∧
    List.Perm (sortByLat (peer_latencies maxLat probe peers))
      (peer_latencies maxLat probe peers) ∧
    ((sortByLat (peer_latencies maxLat probe peers)).filter
        (fun z => decide (z.2 = q)) =
      (peer_latencies maxLat probe peers).filter (fun z => decide (z.2 = q))) ∧
    (filter_by_latency maxLat probe peers =
      (sortByLat (peer_latencies maxLat probe peers)).map Prod.fst) ∧
    (0 < cfg.desired_count → filter_peers cfg geo probe raw = some out →
      (out.length : Int) ≤ cfg.desired_count) := by
  refine ⟨sortByLat_sorted _, sortByLat_perm _, sortByLat_filter _ q, rfl, ?_⟩
  intro hd h
  exact filter_peers_length (le_of_lt hd) h

/-- Witness for C6 at a concrete run: one candidate, `desired_count = 1`,
output of length 1. -/
theorem claim_C6_sorted_truncated_witness :
    ((["a@1.2.3.4:1".toList] : List PyStr).length : Int) ≤ cfgC1.desired_count :=
  (claim_C6_sorted_truncated 50 probeW [] cfgC1 geoEchoW
    ["a@1.2.3.4:1".toList] ["a@1.2.3.4:1".toList] 0).2.2.2.2
    (by decide) (by decide)

/-- C7: if the batched geolocation call fails, the geography stage returns
the empty survivor set whatever the input; and every survivor of a
successful batch had its address resolved, in that batch, to a country of
the target list — a peer whose lookup yields no target country is never
kept. -/
theorem claim_C7_geo_fail_closed (targets : List PyStr)
    (geo : List PyStr → Except Unit (List (PyStr × GeoDetails)))
    (peers : List PeerEndpoint) (batch : List (PyStr × GeoDetails))
    (out : List PeerEndpoint) :
    (filter_by_country targets (fun _ => Except.error ()) peers = some []) ∧
    (geo (peer_keys peers) = Except.ok batch →
      filter_by_country targets geo peers = some out →
      ∀ p ∈ out, ∃ d, (p.ip, d) ∈ batch ∧
        ∃ c, countryOf d = some c ∧ c ∈ targets) := by
  constructor
  · rfl
  · intro hgeo hf p hp
    unfold filter_by_country at hf
    rw [hgeo] at hf
    obtain ⟨d, hd, _, c, hc, hct⟩ := country_pass_spec hf p hp
    exact ⟨d, hd, c, hc, hct⟩

/-- Witness for C7: a concrete surviving peer resolved to `US`, and the
fail-closed branch on a concrete nonempty input. -/
theorem claim_C7_geo_fail_closed_witness :
    (∃ d, (peerA.ip, d) ∈ batchW ∧
      ∃ c, countryOf d = some c ∧ c ∈ [("US".toList : PyStr)]) ∧
    filter_by_country ["US".toList] (fun _ => Except.error ()) [peerA, peerB] =
      some [] :=
  ⟨(claim_C7_geo_fail_closed ["US".toList] geoFixedW [peerA] batchW [peerA]).2
      rfl (by decide) peerA (by decide),
   (claim_C7_geo_fail_closed ["US".toList] geoFixedW [peerA, peerB] batchW []).1⟩

/-- C8: the validity stage drops exactly the endpoints whose address is one
of the textual loopback forms `127.0.0.1`, `localhost`, `::1`, keeps every
other endpoint unchanged (the output is a sublist of the input), and on the
three endpoints denoted by `id@127.0.0.1:1`, `id@10.0.0.1:2`, `id@::1:3`
only the second survives. -/
theorem claim_C8_validity (peers : List PeerEndpoint) (p : PeerEndpoint) :
    (p ∈ filter_invalid_peers peers ↔ p ∈ peers ∧ p.ip ∉ loopbacks) ∧
    (filter_invalid_peers peers).Sublist peers ∧
    filter_invalid_peers
        [⟨"id".toList, "127.0.0.1".toList, 1⟩,
         ⟨"id".toList, "10.0.0.1".toList, 2⟩,
         ⟨"id".toList, "::1".toList, 3⟩] =
      [⟨"id".toList, "10.0.0.1".toList, 2⟩] :=
  ⟨mem_filter_invalid_peers peers p, filter_invalid_peers_sublist peers,
    by decide⟩

/-- C10: within a successful geolocation batch whose keys are distinct (as
the keys of a Python dict are), the geography stage's output has at most
one endpoint per distinct address, and every survivor is exactly the last
peer of the input carrying its address — so of two input endpoints sharing
an address only the later one can survive. -/
theorem claim_C10_last_wins (targets : List PyStr)
    (geo : List PyStr → Except Unit (List (PyStr × GeoDetails)))
    (peers : List PeerEndpoint) (batch : List (PyStr × GeoDetails))
    (out : List PeerEndpoint) :
    geo (peer_keys peers) = Except.ok batch →
    filter_by_country targets geo peers = some out →
    (batch.map Prod.fst).Nodup →
    (out.map (fun p => p.ip)).Nodup ∧
    ∀ p ∈ out, peer_map_lookup peers p.ip = some p := by
  intro hgeo hf hnd
  unfold filter_by_country at hf
  rw [hgeo] at hf
  refine ⟨country_pass_nodup hf hnd, ?_⟩
  intro p hp
  obtain ⟨_, _, hlk, _⟩ := country_pass_spec hf p hp
  exact hlk

/-- Witness for C10: with two input peers sharing the address `1.2.3.4`,
only the later one (`peerB`) survives, and it is the one the address map
yields. -/
theorem claim_C10_last_wins_witness :
    (([peerB].map (fun p => p.ip)).Nodup) ∧
    ∀ p ∈ [peerB], peer_map_lookup [peerA, peerB] p.ip = some p :=
  claim_C10_last_wins ["US".toList] geoFixedW [peerA, peerB] batchW [peerB]
    rfl (by decide) (by decide)

/-- C3 counterexample: `parse` does not range-check the port, does not
require it non-negative, and does not validate the address as an IP
literal: `id@1.2.3.4:99999` (port beyond 16 bits) and `id@foo:-5`
(non-IP address, negative port) both parse to full values instead of
failing. -/
theorem claim_C3_counterexample :
    PeerEndpoint.from_string "id@1.2.3.4:99999".toList =
      some ⟨"id".toList, "1.2.3.4".toList, 99999⟩ ∧
    PeerEndpoint.from_string "id@foo:-5".toList =
      some ⟨"id".toList, "foo".toList, -5⟩ := by decide

/-- C3 amended: `parse` fails (raises, modelled `none`) exactly on the
structural failures the code checks: when `@` is absent, when the address
part of an `[id, address]` split lacks `:`, and when the port segment of an
`[ip, port]` split is not parseable by Python `int`.  No port-range check
and no address-syntax check is performed, and no partial value is ever
returned (`from_string` yields `none` in each of these cases). -/
theorem claim_C3_amended (s addr id2 ip ps : PyStr) :
    ('@' ∉ s → PeerEndpoint.from_string s = none) ∧
    (pySplit '@' s = [id2, addr] → ':' ∉ addr →
      PeerEndpoint.from_string s = none) ∧
    (pySplit '@' s = [id2, addr] → pySplit ':' addr = [ip, ps] →
      pyInt ps = none → PeerEndpoint.from_string s = none) := by
  refine ⟨?_, ?_, ?_⟩
  · intro h
    unfold PeerEndpoint.from_string
    rw [pySplit_of_not_mem h]
  · intro h1 h2
    unfold PeerEndpoint.from_string
    rw [h1]
    show (match pySplit ':' addr with
      | [ip2, portStr] =>
        (pyInt portStr).map (fun port => (⟨id2, ip2, port⟩ : PeerEndpoint))
      | _ => none) = none
    rw [pySplit_of_not_mem h2]
  · intro h1 h2 h3
    rw [from_string_eq h1 h2, h3]
    rfl

/-- Witness for C3 amended, at the three malformed shapes. -/
theorem claim_C3_amended_witness :
    PeerEndpoint.from_string "no-separator".toList = none ∧
    PeerEndpoint.from_string "id@1.2.3.4".toList = none ∧
    PeerEndpoint.from_string "id@1.2.3.4:abc".toList = none :=
  ⟨(claim_C3_amended "no-separator".toList [] [] [] []).1 (by decide),
   (claim_C3_amended "id@1.2.3.4".toList "1.2.3.4".toList "id".toList
      [] []).2.1 (by decide) (by decide),
   (claim_C3_amended "id@1.2.3.4:abc".toList "1.2.3.4:abc".toList "id".toList
      "1.2.3.4".toList "abc".toList).2.2 (by decide) (by decide) (by decide)⟩

/-- C4 counterexample: one malformed entry aborts the whole batch.  On
`["a@1.2.3.4:1", "malformed"]` — whose first entry is well formed and,
under the favourable oracles, would survive every stage — `filter_peers`
raises (returns `none`) instead of dropping the malformed entry and
keeping the survivor. -/
theorem claim_C4_counterexample :
    filter_peers cfgC1 geoEchoW probeW
      ["a@1.2.3.4:1".toList, "malformed".toList] = none ∧
    PeerEndpoint.from_string "a@1.2.3.4:1".toList ≠ none ∧
    filter_peers cfgC1 geoEchoW probeW ["a@1.2.3.4:1".toList] =
      some ["a@1.2.3.4:1".toList] := by decide

/-- C4 amended: `filter_peers` parses all candidates first, but without any
per-entry error handling: if any entry fails to parse the whole call
raises (modelled `none`), aborting the batch; only when every entry parses
do the endpoints flow through the three stages in order. -/
theorem claim_C4_amended (cfg : PeerConfig)
    (geo : List PyStr → Except Unit (List (PyStr × GeoDetails)))
    (probe : PeerEndpoint → ProbeOutcome) (peers : List PyStr) :
    ((∃ s ∈ peers, PeerEndpoint.from_string s = none) →
      filter_peers cfg geo probe peers = none) ∧
    ((∀ s ∈ peers, (PeerEndpoint.from_string s).isSome) →
      filter_peers cfg geo probe peers =
        (filter_by_country cfg.target_countries geo
            (filter_invalid_peers
              (peers.filterMap PeerEndpoint.from_string))).map
          (fun byCountry =>
            pySliceTo cfg.desired_count
              ((filter_by_latency cfg.max_latency probe byCountry).map
                PeerEndpoint.render))) := by
  constructor
  · rintro ⟨s, hs, hnone⟩
    unfold filter_peers
    rw [parse_all_none hs hnone]
    rfl
  · intro h
    unfold filter_peers
    rw [parse_all_some h, Option.some_bind]

/-- Witness for C4 amended: the batch `["malformed"]` aborts, and the batch
`["a@1.2.3.4:1"]` flows through the stages. -/
theorem claim_C4_amended_witness :
    filter_peers cfgC1 geoEchoW probeW ["malformed".toList] = none ∧
    filter_peers cfgC1 geoEchoW probeW ["a@1.2.3.4:1".toList] =
      (filter_by_country cfgC1.target_countries geoEchoW
          (filter_invalid_peers
            (["a@1.2.3.4:1".toList].filterMap PeerEndpoint.from_string))).map
        (fun byCountry =>
          pySliceTo cfgC1.desired_count
            ((filter_by_latency cfgC1.max_latency probeW byCountry).map
              PeerEndpoint.render)) :=
  ⟨(claim_C4_amended cfgC1 geoEchoW probeW ["malformed".toList]).1
      ⟨"malformed".toList, by decide, by decide⟩,
   (claim_C4_amended cfgC1 geoEchoW probeW ["a@1.2.3.4:1".toList]).2
      (by decide)⟩

/-- C5 counterexample: the round trip fails in both directions.  The valid
endpoint `{id, ::1, 26656}` (an IPv6 loopback address and a 16-bit port)
renders to `id@::1:26656`, which `parse` rejects, so
`parse(format(e)) = e` fails; and `id@1.2.3.4:07` parses successfully but
renders back to `id@1.2.3.4:7`, so `format(parse(s)) = s` fails. -/
theorem claim_C5_counterexample :
    PeerEndpoint.from_string
        (PeerEndpoint.render ⟨"id".toList, "::1".toList, 26656⟩) = none ∧
    PeerEndpoint.from_string "id@1.2.3.4:07".toList =
      some ⟨"id".toList, "1.2.3.4".toList, 7⟩ ∧
    PeerEndpoint.render ⟨"id".toList, "1.2.3.4".toList, 7⟩ ≠
      "id@1.2.3.4:07".toList := by decide

/-- C5 amended: the round trip `parse(format(e)) = e` holds exactly for the
endpoints whose identifier contains no `@` and whose address contains
neither `@` nor `:` (so never for IPv6 literals); in particular it holds
for every value `parse` itself produces, so `format` after `parse` is
idempotent even though `format(parse(s)) = s` can fail for non-canonical
port segments. -/
theorem claim_C5_amended (e : PeerEndpoint) (s : PyStr) (e' : PeerEndpoint) :
    ('@' ∉ e.node_id → '@' ∉ e.ip → ':' ∉ e.ip →
      PeerEndpoint.from_string (PeerEndpoint.render e) = some e) ∧
    (PeerEndpoint.from_string s = some e' →
      PeerEndpoint.from_string (PeerEndpoint.render e') = some e') :=
  ⟨fun h1 h2 h3 => from_string_render h1 h2 h3,
   fun h => from_string_render_of_parsed h⟩

/-- Witness for C5 amended at a concrete endpoint and a concrete
non-canonical string. -/
theorem claim_C5_amended_witness :
    PeerEndpoint.from_string
        (PeerEndpoint.render ⟨"id".toList, "1.2.3.4".toList, 26656⟩) =
      some ⟨"id".toList, "1.2.3.4".toList, 26656⟩ ∧
    PeerEndpoint.from_string
        (PeerEndpoint.render ⟨"id".toList, "1.2.3.4".toList, 7⟩) =
      some ⟨"id".toList, "1.2.3.4".toList, 7⟩ :=
  ⟨(claim_C5_amended ⟨"id".toList, "1.2.3.4".toList, 26656⟩ [] peerA).1
      (by decide) (by decide) (by decide),
   (claim_C5_amended peerA "id@1.2.3.4:07".toList
      ⟨"id".toList, "1.2.3.4".toList, 7⟩).2 (by decide)⟩

/-- C1 counterexample: under favourable oracles where every attempt's
single fresh candidate survives the whole pipeline, the loop the
specification describes (`spec_loop`: filter each batch, union survivors,
stop as soon as the qualified set reaches `desired_count = 1`) stops after
1 attempt — but the code's loop (`fetch_loop`, as run by
`fetch_live_peers` with `max_attempts = 3`) performs all 3 fetches and
returns 3 raw peers, because it accumulates unfiltered candidates toward
the constant 25 and never consults `desired_count` or the filter
pipeline. -/
theorem claim_C1_counterexample :
    (spec_loop 1 fetchC1 pipeC1 3 0 []).1 = 1 ∧
    (fetch_loop respC1 3 0 [] none).1 = 3 ∧
    (fetch_live_peers cfgC1 respC1).live_peers.length = 3 := by decide

/-- C1 amended: each iteration of the code's acquisition loop fetches a
fresh batch and unions its raw (unfiltered) candidate strings into the
unique pool; the loop performs at most `max_attempts` fetches, every
performed fetch was preceded by a pool of fewer than 25 unique raw peers,
stopping early happens exactly when the pool has reached 25, the loop's
final pool is the union of the fetched batches, and the filter pipeline
runs once, after the loop, over the pooled candidates. -/
theorem claim_C1_amended (cfg : PeerConfig)
    (resp : Nat → Option (PyStr × List PyStr))
    (geo : List PyStr → Except Unit (List (PyStr × GeoDetails)))
    (probe : PeerEndpoint → ProbeOutcome) :
    (fetch_loop resp cfg.max_attempts.toNat 0 [] none).1 ≤
      cfg.max_attempts.toNat ∧
    (∀ k, k < (fetch_loop resp cfg.max_attempts.toNat 0 [] none).1 →
      (pool_after resp k).length < 25) ∧
    ((fetch_loop resp cfg.max_attempts.toNat 0 [] none).1 <
        cfg.max_attempts.toNat →
      25 ≤ (pool_after resp
        (fetch_loop resp cfg.max_attempts.toNat 0 [] none).1).length) ∧
    (fetch_loop resp cfg.max_attempts.toNat 0 [] none).2.1 =
      pool_after resp (fetch_loop resp cfg.max_attempts.toNat 0 [] none).1 ∧
    main_valid_peers cfg resp geo probe =
      filter_peers cfg geo probe (fetch_live_peers cfg resp).live_peers := by
  have e1 : pool_after resp 0 = [] := rfl
  have e2 : last_after resp 0 = none := rfl
  obtain ⟨i1, i2, i3, i4, i5, i6⟩ := fetch_loop_spec resp cfg.max_attempts.toNat 0
  rw [e1, e2] at i1 i2 i3 i4 i5 i6
  refine ⟨by omega, ?_, by omega, i3, rfl⟩
  intro k hk
  exact i5 k (Nat.zero_le k) hk

/-- Witness for C1 amended: with singleton batches the pool stays under 25
before every later attempt, and with a 25-peer batch the loop stops early
with a full pool. -/
theorem claim_C1_amended_witness :
    (pool_after respSmallW 1).length < 25 ∧
    25 ≤ (pool_after resp25W
      (fetch_loop resp25W cfg25W.max_attempts.toNat 0 [] none).1).length :=
  ⟨(claim_C1_amended cfgSmallW respSmallW geoEchoW probeW).2.1 1 (by decide),
   (claim_C1_amended cfg25W resp25W geoEchoW probeW).2.2.1 (by decide)⟩

/-- C9: the candidate-fetch loop accumulates raw unique peer strings toward
the hardcoded pool size 25: the returned live-peers list always has length
at most 25, the result does not depend on `desired_count` at all, and the
loop retries before exhausting `max_attempts` only while the pool is still
short of 25 (stopping early exactly when 25 is reached). -/
theorem claim_C9_pool_of_25 (cfg : PeerConfig)
    (resp : Nat → Option (PyStr × List PyStr)) (d d' : Int) :
    (fetch_live_peers cfg resp).live_peers.length ≤ 25 ∧
    fetch_live_peers { cfg with desired_count := d } resp =
      fetch_live_peers { cfg with desired_count := d' } resp ∧
    ((fetch_loop resp cfg.max_attempts.toNat 0 [] none).1 <
        cfg.max_attempts.toNat →
      25 ≤ (pool_after resp
        (fetch_loop resp cfg.max_attempts.toNat 0 [] none).1).length) := by
  refine ⟨fetch_live_peers_len_le cfg resp,
    fetch_live_peers_desired_irrel cfg resp d d', ?_⟩
  have e1 : pool_after resp 0 = [] := rfl
  have e2 : last_after resp 0 = none := rfl
  obtain ⟨i1, i2, i3, i4, i5, i6⟩ := fetch_loop_spec resp cfg.max_attempts.toNat 0
  rw [e1, e2] at i6
  intro h
  exact i6 (by omega)

/-- Witness for C9: the early-stop bound at the concrete 25-peer
responses, together with the unconditional length bound there. -/
theorem claim_C9_pool_of_25_witness :
    25 ≤ (pool_after resp25W
      (fetch_loop resp25W cfg25W.max_attempts.toNat 0 [] none).1).length ∧
    (fetch_live_peers cfg25W resp25W).live_peers.length ≤ 25 :=
  ⟨(claim_C9_pool_of_25 cfg25W resp25W 0 1).2.2 (by decide),
   (claim_C9_pool_of_25 cfg25W resp25W 0 1).1⟩

end Peerscout
